import Mathlib

/-!
Verification development for the Oceans subnet scoring pipeline.

The Python sources are embedded shallowly:
* floats become exact rationals (ℚ); machine non-finite values (NaN, ±inf)
  are modelled explicitly by the `FloatVal` type where the code inspects them;
* Python dicts become association lists `List (ℕ × ℚ)` (`Dict` below) with
  insertion-order semantics matching dict iteration order;
* numpy arrays become `List ℚ` with explicit index operations;
* code paths that raise become `Option` results (`none` = exception).

Embedded code: `src/validator/rewards.py` (RewardCalculator),
`src/base/validator.py` (update_scores, resync_metagraph),
`src/validator/forward.py` (forward), and the per-position filter of
`src/validator/liquidity_fetcher.py` (LiquidityFetcher.fetch_and_store).
-/

/-- Python `Dict[int, float]` as an insertion-ordered association list. -/
abbrev Dict := List (ℕ × ℚ)

/-- Lookup with default 0, mirroring `defaultdict(float)` reads /
`dict.get(k, 0.0)`. -/
def dget : Dict → ℕ → ℚ
  | [], _ => 0
  | p :: t, k => if p.1 = k then p.2 else dget t k

/-- Sum of a dict's values: `sum(d.values())`. -/
def sumValues (d : Dict) : ℚ := (d.map Prod.snd).sum

/-- `d[k] += v` on a `defaultdict(float)`: add to the existing entry, else
append a fresh one (Python dicts keep first-insertion order). -/
def insertAdd : Dict → ℕ → ℚ → Dict
  | [], k, v => [(k, v)]
  | p :: t, k, v => if p.1 = k then (p.1, p.2 + v) :: t else p :: insertAdd t k v

/-- `d[k] = v`: replace the existing entry's value, else append. -/
def insertReplace : Dict → ℕ → ℚ → Dict
  | [], k, v => [(k, v)]
  | p :: t, k, v => if p.1 = k then (p.1, v) :: t else p :: insertReplace t k v

/-- The key list of a dict (`d.keys()`). -/
def keys (d : Dict) : List ℕ := d.map Prod.fst

/-- `Dict[int, Dict[int, float]]` (liquidity map). -/
abbrev LiqMap := List (ℕ × Dict)

/-- `lp_map.get(subnet_id, {})`. -/
def lget : LiqMap → ℕ → Dict
  | [], _ => []
  | p :: t, k => if p.1 = k then p.2 else lget t k

/-- One governance vote (`api.schemas.Vote` as consumed by rewards.py):
`voter_stake` and the per-subnet `weights` dict. -/
structure Vote where
  voter_stake : ℚ
  weights : Dict
deriving DecidableEq

/-- Loop body of `RewardCalculator._build_master_vector`: process one vote,
accumulating `(raw, total_stake)`.  Votes with non-positive stake, empty
weights, or non-positive weight sum are skipped. -/
def accumVote (acc : Dict × ℚ) (v : Vote) : Dict × ℚ :=
  if v.voter_stake ≤ 0 ∨ v.weights.isEmpty then acc
  else
    let s := sumValues v.weights
    if s ≤ 0 then acc
    else
      (v.weights.foldl (fun d p => insertAdd d p.1 (v.voter_stake * (p.2 / s))) acc.1,
       acc.2 + v.voter_stake)

/-- The `(raw, total_stake)` pair after the vote loop of
`_build_master_vector`. -/
def voteAccum (votes : List Vote) : Dict × ℚ :=
  votes.foldl accumVote ([], 0)

/-- Total qualifying stake accumulated by `_build_master_vector`. -/
def totalQualifyingStake (votes : List Vote) : ℚ := (voteAccum votes).2

/-- Raw (unnormalised) per-subnet accumulation of `_build_master_vector`. -/
def rawVector (votes : List Vote) : Dict := (voteAccum votes).1

/-- `RewardCalculator._build_master_vector` (rewards.py lines 133-168). -/
def build_master_vector (votes : List Vote) : Dict :=
  if votes.isEmpty then []
  else
    let raw := rawVector votes
    let total_stake := totalQualifyingStake votes
    if total_stake ≤ 0 then []
    else raw.map (fun p => (p.1, p.2 / total_stake))

/-- Per-subnet inner loop of `RewardCalculator.compute` (step 3): distribute
`w_sub` over the subnet's positive liquidity entries, proportionally. -/
def applySubnet (lp_map : LiqMap) (rewards : Dict) (subnet_id : ℕ) (w_sub : ℚ) : Dict :=
  if w_sub ≤ 0 then rewards
  else
    let lp_by_uid := lget lp_map subnet_id
    let total_lp := sumValues lp_by_uid
    if total_lp ≤ 0 then rewards
    else
      lp_by_uid.foldl
        (fun rw q => if q.2 ≤ 0 then rw else insertAdd rw q.1 (q.2 * (1 / total_lp) * w_sub))
        rewards

/-- The raw reward accumulation of `RewardCalculator.compute` (step 3),
before normalisation. -/
def rawRewards (master_w : Dict) (lp_map : LiqMap) : Dict :=
  master_w.foldl (fun rw p => applySubnet lp_map rw p.1 p.2) []

/-- Steps 2-4 of `RewardCalculator.compute`, given an already-built master
vector (rewards.py lines 56-128): apply the formula, then normalise, with a
uniform fallback `{uid: 1/len(uids)}` when the raw sum is zero. -/
def computeWithMaster (uids : List ℕ) (master_w : Dict) (lp_map : LiqMap) : Dict :=
  if uids.isEmpty then []
  else
    let rewards := rawRewards master_w lp_map
    let ttl := sumValues rewards
    if 0 < ttl then rewards.map (fun p => (p.1, p.2 * (1 / ttl)))
    else uids.foldl (fun d u => insertReplace d u (1 / uids.length)) []

/-- `RewardCalculator.compute` (rewards.py lines 32-128): `uids` is
`list(metagraph.uids)`. -/
def compute (uids : List ℕ) (votes : List Vote) (lp_map : LiqMap) : Dict :=
  computeWithMaster uids (build_master_vector votes) lp_map

/-! ### Score accumulator (`src/base/validator.py`) -/

/-- A float64 value as fed to `np.nan_to_num`: either a finite value
(modelled exactly as a rational) or one of the non-finite values. -/
inductive FloatVal where
  | finite (q : ℚ)
  | nan
  | posInf
  | negInf
deriving DecidableEq

/-- The largest finite float64, `np.finfo(np.float64).max`
= 1.7976931348623157e308 = (2^53 - 1) * 2^971. -/
def maxFloat64 : ℚ := (2 ^ 53 - 1) * 2 ^ 971

/-- `np.nan_to_num(x, nan=0.0)` elementwise: NaN becomes 0, while +inf and
-inf become the largest / lowest finite float64 (numpy defaults, since
`posinf`/`neginf` are not passed at validator.py line 208). -/
def nanToNum : FloatVal → ℚ
  | .finite q => q
  | .nan => 0
  | .posInf => maxFloat64
  | .negInf => -maxFloat64

/-- `scattered = np.zeros_like(scores); scattered[uids] = rewards`
(validator.py lines 220-221): fancy assignment writes `rewards[i]` at index
`uids[i]`, later writes winning on duplicate indices. -/
def scatterList (n : ℕ) (uids : List ℕ) (rewards : List ℚ) : List ℚ :=
  (uids.zip rewards).foldl (fun a p => a.set p.1 p.2) (List.replicate n 0)

/-- The EMA coefficient `alpha = 0.1` (validator.py line 228). -/
def alpha : ℚ := 1 / 10

/-- `alpha * scattered + (1.0 - alpha) * scores`, elementwise
(validator.py line 230). -/
def emaStep (scattered scores : List ℚ) : List ℚ :=
  List.zipWith (fun x s => alpha * x + (1 - alpha) * s) scattered scores

/-- `BaseValidatorNeuron.update_scores` (validator.py lines 198-248) acting
on the `self.scores` state.  `none` models a raised exception: the
`ValueError` on a size mismatch, or numpy's `IndexError` when a uid is out
of the score vector's range at the scatter step.  Empty inputs return the
scores unchanged (early `return`). -/
def update_scores (scores : List ℚ) (rewards : List FloatVal) (uids : List ℕ) :
    Option (List ℚ) :=
  let rewards2 := rewards.map nanToNum
  if rewards2.length = 0 ∨ uids.length = 0 then some scores
  else if rewards2.length ≠ uids.length then none
  else if uids.all (fun u => u < scores.length) then
    some (emaStep (scatterList scores.length uids rewards2) scores)
  else none

/-- `BaseValidatorNeuron.update_scores` iterated k times with the same
inputs (k consecutive epochs); on an exception the state is kept. -/
def iterUpdate (scores : List ℚ) (rewards : List FloatVal) (uids : List ℕ) :
    ℕ → List ℚ
  | 0 => scores
  | k + 1 =>
      (update_scores (iterUpdate scores rewards uids k) rewards uids).getD
        (iterUpdate scores rewards uids k)

/-- `BaseValidatorNeuron.resync_metagraph` (validator.py lines 162-184)
acting on `self.scores`: zero the score of every uid whose hotkey changed,
then, if the subnet grew, extend with zeros (`new_scores = np.zeros(n);
new_scores[:len(scores)] = scores`).  Hotkeys are modelled as naturals. -/
def resync_metagraph (hotkeys : List ℕ) (scores : List ℚ) (newHotkeys : List ℕ) :
    List ℚ :=
  let zeroed := (List.range hotkeys.length).foldl
    (fun sc uid => if hotkeys.getD uid 0 = newHotkeys.getD uid 0 then sc else sc.set uid 0)
    scores
  if hotkeys.length < newHotkeys.length then
    zeroed ++ List.replicate (newHotkeys.length - zeroed.length) 0
  else zeroed

/-! ### `src/validator/forward.py` -/

/-- Step 3 of `forward` (forward.py lines 33-40): scatter the
`{uid: score}` dict into a zero-initialised length-`n` array, ignoring
entries whose uid is not in `[0, n)`. -/
def boostedOf (n : ℕ) (uid_scores : Dict) : List ℚ :=
  uid_scores.foldl (fun b p => if p.1 < n then b.set p.1 p.2 else b)
    (List.replicate n 0)

/-- Steps 3-5 of `forward` (forward.py lines 33-56): build `boosted` from
the reward dict, normalise it (uniform fill on zero total), and feed it to
`update_scores` with `uids = metagraph.uids = range n`.  `n` is the
metagraph size, equal to `scores.length`. -/
def forwardUpdate (scores : List ℚ) (uid_scores : Dict) : Option (List ℚ) :=
  let n := scores.length
  let boosted := boostedOf n uid_scores
  let total := boosted.sum
  let boosted2 := if 0 < total then boosted.map (fun x => x / total)
    else List.replicate n ((1 : ℚ) / n)
  update_scores scores (boosted2.map FloatVal.finite) (List.range n)

/-! ### Liquidity position filter (`src/validator/liquidity_fetcher.py`) -/

/-- The policy knobs of `LiquidityFetcher` (liquidity_fetcher.py lines
43-44). -/
structure Policy where
  MIN_RELATIVE_WIDTH : ℚ
  COUNT_ONLY_IN_RANGE : Bool

/-- The per-position accept/discard decision of
`LiquidityFetcher.fetch_and_store` (liquidity_fetcher.py lines 141-187),
at current price `P`: non-finite bounds are discarded, then non-positive
bounds, then degenerate ranges (`price_high <= price_low`), then (when
`COUNT_ONLY_IN_RANGE`) positions whose range does not strictly contain `P`,
then (when `MIN_RELATIVE_WIDTH > 0`) positions whose relative width
`(price_high - price_low) / P` is below the minimum. -/
def acceptPosition (pol : Policy) (P : ℚ) (price_low price_high : FloatVal) : Bool :=
  match price_low, price_high with
  | .finite p_low, .finite p_high =>
    if p_low ≤ 0 ∨ p_high ≤ 0 then false
    else if p_high ≤ p_low then false
    else if pol.COUNT_ONLY_IN_RANGE = true ∧ ¬(p_low < P ∧ P < p_high) then false
    else if 0 < pol.MIN_RELATIVE_WIDTH ∧
        (p_high - p_low) / P < pol.MIN_RELATIVE_WIDTH then false
    else true
  | _, _ => false

/-! ## Helper lemmas on dictionaries -/

theorem sumValues_nil : sumValues [] = 0 := rfl

theorem sumValues_cons (p : ℕ × ℚ) (t : Dict) :
    sumValues (p :: t) = p.2 + sumValues t := by
  simp [sumValues]

theorem sumValues_insertAdd (d : Dict) (k : ℕ) (v : ℚ) :
    sumValues (insertAdd d k v) = sumValues d + v := by
  induction d with
  | nil => simp [insertAdd, sumValues]
  | cons p t ih =>
      by_cases h : p.1 = k
      · simp only [insertAdd, if_pos h, sumValues_cons]; ring
      · simp only [insertAdd, if_neg h, sumValues_cons, ih]; ring

theorem sumValues_foldl_insertAdd (f : ℕ × ℚ → ℚ) (ws : List (ℕ × ℚ)) (d0 : Dict) :
    sumValues (ws.foldl (fun d p => insertAdd d p.1 (f p)) d0)
      = sumValues d0 + (ws.map f).sum := by
  induction ws generalizing d0 with
  | nil => simp
  | cons w t ih =>
      simp only [List.foldl_cons, List.map_cons, List.sum_cons, ih,
        sumValues_insertAdd]
      ring

theorem sum_map_stake_div (c s : ℚ) (ws : Dict) :
    (ws.map (fun p => c * (p.2 / s))).sum = c * (sumValues ws / s) := by
  induction ws with
  | nil => simp [sumValues]
  | cons w t ih =>
      simp only [List.map_cons, List.sum_cons, ih, sumValues_cons]
      ring

theorem sumValues_map_div (d : Dict) (c : ℚ) :
    sumValues (d.map (fun p => (p.1, p.2 / c))) = sumValues d / c := by
  induction d with
  | nil => simp [sumValues]
  | cons p t ih =>
      simp only [List.map_cons, sumValues_cons, ih]
      ring

theorem sumValues_map_mul (d : Dict) (c : ℚ) :
    sumValues (d.map (fun p => (p.1, p.2 * c))) = sumValues d * c := by
  induction d with
  | nil => simp [sumValues]
  | cons p t ih =>
      simp only [List.map_cons, sumValues_cons, ih]
      ring

/-- The vote loop keeps `sumValues raw = total_stake` invariant. -/
theorem voteAccum_sum_eq (votes : List Vote) :
    ∀ acc : Dict × ℚ, sumValues acc.1 = acc.2 →
      sumValues (votes.foldl accumVote acc).1 = (votes.foldl accumVote acc).2 := by
  induction votes with
  | nil => intro acc h; simpa using h
  | cons v t ih =>
      intro acc h
      simp only [List.foldl_cons]
      apply ih
      unfold accumVote
      by_cases h1 : v.voter_stake ≤ 0 ∨ v.weights.isEmpty = true
      · rw [if_pos h1]; exact h
      · rw [if_neg h1]
        by_cases h2 : sumValues v.weights ≤ 0
        · rw [if_pos h2]; exact h
        · rw [if_neg h2]
          have hs : sumValues v.weights ≠ 0 := by
            intro hz; exact h2 (le_of_eq hz)
          simp only [sumValues_foldl_insertAdd, sum_map_stake_div, h,
            div_self hs, mul_one]

/-! ## C9, C3: vote aggregation -/

/-- Votes with non-positive stake leave the accumulator unchanged. -/
theorem foldl_accumVote_skip (votes : List Vote) (acc : Dict × ℚ)
    (h : ∀ v ∈ votes, v.voter_stake ≤ 0) :
    votes.foldl accumVote acc = acc := by
  induction votes generalizing acc with
  | nil => rfl
  | cons v t ih =>
      have hv : v.voter_stake ≤ 0 := h v (List.mem_cons_self v t)
      simp only [List.foldl_cons, accumVote, if_pos (Or.inl hv)]
      exact ih acc (fun w hw => h w (List.mem_cons_of_mem v hw))

/-- C9: vote aggregation on an empty vote list, and on a vote list in which
every vote has non-positive stake, returns the empty master vector (the
defined "no evidence" signal), without error. -/
theorem aggregate_no_evidence_empty (votes : List Vote)
    (h : ∀ v ∈ votes, v.voter_stake ≤ 0) :
    build_master_vector [] = [] ∧ build_master_vector votes = [] := by
  refine ⟨rfl, ?_⟩
  by_cases hv : votes.isEmpty = true
  · simp [build_master_vector, hv]
  · have hacc : voteAccum votes = ([], 0) :=
      foldl_accumVote_skip votes ([], 0) h
    simp [build_master_vector, hv, totalQualifyingStake, hacc]

theorem aggregate_no_evidence_empty_witness :
    build_master_vector [] = [] ∧
      build_master_vector [⟨0, [(1, 1)]⟩, ⟨-5, [(2, 1)]⟩] = [] :=
  aggregate_no_evidence_empty [⟨0, [(1, 1)]⟩, ⟨-5, [(2, 1)]⟩]
    (by norm_num [List.forall_mem_cons])

/-- C3: for every non-empty vote list with positive total qualifying stake,
the master vector sums to exactly 1 (the float claim "1.0 ± 1e-9" holds
exactly over ℚ), and each sub-market's value is the accumulated
stake-scaled normalised weight divided by the total qualifying stake. -/
theorem aggregate_sums_to_one (votes : List Vote) (h1 : votes ≠ [])
    (h2 : 0 < totalQualifyingStake votes) :
    sumValues (build_master_vector votes) = 1 ∧
      build_master_vector votes
        = (rawVector votes).map (fun p => (p.1, p.2 / totalQualifyingStake votes)) := by
  have hne : ¬ votes.isEmpty = true := by
    simpa [List.isEmpty_iff] using h1
  have hraw : sumValues (rawVector votes) = totalQualifyingStake votes :=
    voteAccum_sum_eq votes ([], 0) (by simp [sumValues])
  constructor
  · simp only [build_master_vector, if_neg hne, if_neg (not_le.mpr h2)]
    rw [sumValues_map_div, hraw, div_self (ne_of_gt h2)]
  · simp only [build_master_vector, if_neg hne, if_neg (not_le.mpr h2)]

theorem aggregate_sums_to_one_witness :
    sumValues (build_master_vector [⟨100, [(1, 1)]⟩, ⟨300, [(1, 1/2), (2, 1/2)]⟩]) = 1 :=
  (aggregate_sums_to_one [⟨100, [(1, 1)]⟩, ⟨300, [(1, 1/2), (2, 1/2)]⟩]
    (by simp)
    (by norm_num [totalQualifyingStake, voteAccum, accumVote, sumValues, insertAdd])).1

/-! ## C1: end-to-end scenario -/

/-- C1 (counterexample): with stakes 100 and 300 assigned respectively to
weights `{1: 1.0}` and `{1: 0.5, 2: 0.5}` as the claim states, the code's
master vector is `{1: 0.625, 2: 0.375}`, not the claimed
`{1: 0.875, 2: 0.125}`, and the reward vector (slots A=0, B=1) is
`{0: 0.53125, 1: 0.46875}`, not the claimed `{0: 0.34375, 1: 0.65625}`. -/
theorem end_to_end_counterexample :
    build_master_vector [⟨100, [(1, 1)]⟩, ⟨300, [(1, 1/2), (2, 1/2)]⟩]
        = [(1, 5/8), (2, 3/8)] ∧
      dget (build_master_vector [⟨100, [(1, 1)]⟩, ⟨300, [(1, 1/2), (2, 1/2)]⟩]) 1
        ≠ 7/8 ∧
      compute [0, 1] [⟨100, [(1, 1)]⟩, ⟨300, [(1, 1/2), (2, 1/2)]⟩]
          [(1, [(0, 10), (1, 30)]), (2, [(0, 5)])]
        = [(0, 17/32), (1, 15/32)] ∧
      dget (compute [0, 1] [⟨100, [(1, 1)]⟩, ⟨300, [(1, 1/2), (2, 1/2)]⟩]
          [(1, [(0, 10), (1, 30)]), (2, [(0, 5)])]) 0
        ≠ 11/32 := by
  refine ⟨?_, ?_, ?_, ?_⟩ <;>
    norm_num [compute, computeWithMaster, build_master_vector, rawVector,
      totalQualifyingStake, voteAccum, accumVote, sumValues, insertAdd,
      rawRewards, applySubnet, lget, dget]

/-- C1 (amended): with stake 300 on weights `{1: 1.0}` and stake 100 on
`{1: 0.5, 2: 0.5}`, the master vector is `{1: 0.875, 2: 0.125}` and, with
liquidity `{1: {A: 10, B: 30}, 2: {A: 5}}` over universe `{A, B}`
(A = 0, B = 1), the reward vector is `{A: 0.34375, B: 0.65625}`. -/
theorem end_to_end_amended :
    build_master_vector [⟨300, [(1, 1)]⟩, ⟨100, [(1, 1/2), (2, 1/2)]⟩]
        = [(1, 7/8), (2, 1/8)] ∧
      compute [0, 1] [⟨300, [(1, 1)]⟩, ⟨100, [(1, 1/2), (2, 1/2)]⟩]
          [(1, [(0, 10), (1, 30)]), (2, [(0, 5)])]
        = [(0, 11/32), (1, 21/32)] := by
  refine ⟨?_, ?_⟩ <;>
    norm_num [compute, computeWithMaster, build_master_vector, rawVector,
      totalQualifyingStake, voteAccum, accumVote, sumValues, insertAdd,
      rawRewards, applySubnet, lget]

/-! ## C10: empty universe -/

/-- C10: with an empty identity-slot universe, `compute` returns the empty
map for every votes list and liquidity map; the uniform fallback (and its
division by `|universe|`) is never reached. -/
theorem compute_empty_universe (votes : List Vote) (lp_map : LiqMap) :
    compute [] votes lp_map = [] := by
  simp [compute, computeWithMaster]

/-! ## C4: liquidity position filter -/

/-- C4: a position whose `price_high` is not strictly greater than
`price_low` is discarded under every policy; and for finite positive bounds
strictly containing the current price `P`, with a configured minimum
relative width, the position is accepted exactly when
`(price_high - price_low) / P` reaches that minimum. -/
theorem position_filter_boundary (pol : Policy) (P p_low p_high : ℚ) :
    (p_high ≤ p_low →
      acceptPosition pol P (.finite p_low) (.finite p_high) = false) ∧
    (0 < p_low → 0 < p_high → p_low < P → P < p_high →
      0 < pol.MIN_RELATIVE_WIDTH →
      (acceptPosition pol P (.finite p_low) (.finite p_high) = true ↔
        pol.MIN_RELATIVE_WIDTH ≤ (p_high - p_low) / P)) := by
  constructor
  · intro hdeg
    simp only [acceptPosition]
    by_cases h1 : p_low ≤ 0 ∨ p_high ≤ 0
    · rw [if_pos h1]
    · rw [if_neg h1, if_pos hdeg]
  · intro hl hh hlP hPh hmin
    simp only [acceptPosition]
    rw [if_neg (by push_neg; exact ⟨hl, hh⟩),
        if_neg (not_le.mpr (lt_trans hlP hPh)),
        if_neg (by rintro ⟨-, hc⟩; exact hc ⟨hlP, hPh⟩)]
    by_cases hw : (p_high - p_low) / P < pol.MIN_RELATIVE_WIDTH
    · rw [if_pos ⟨hmin, hw⟩]
      simp [not_le.mpr hw]
    · rw [if_neg (by rintro ⟨-, hc⟩; exact hw hc)]
      simp [not_lt.mp hw]

theorem position_filter_boundary_witness :
    acceptPosition ⟨1/10, true⟩ 1 (.finite (3/2)) (.finite (3/2)) = false ∧
      (acceptPosition ⟨1/10, true⟩ 1 (.finite (1/2)) (.finite (3/2)) = true ↔
        (1 : ℚ)/10 ≤ (3/2 - 1/2) / 1) :=
  ⟨(position_filter_boundary ⟨1/10, true⟩ 1 (3/2) (3/2)).1 le_rfl,
   (position_filter_boundary ⟨1/10, true⟩ 1 (1/2) (3/2)).2
     (by norm_num) (by norm_num) (by norm_num) (by norm_num) (by norm_num)⟩

/-! ## C2: compute output is a probability vector -/

theorem insertAdd_nonneg (d : Dict) (k : ℕ) (v : ℚ)
    (hd : ∀ p ∈ d, 0 ≤ p.2) (hv : 0 ≤ v) :
    ∀ p ∈ insertAdd d k v, 0 ≤ p.2 := by
  induction d with
  | nil =>
      intro p hp
      simp only [insertAdd, List.mem_singleton] at hp
      simpa [hp] using hv
  | cons q t ih =>
      intro p hp
      by_cases h : q.1 = k
      · simp only [insertAdd, if_pos h, List.mem_cons] at hp
        rcases hp with rfl | hp
        · exact add_nonneg (hd q (List.mem_cons_self q t)) hv
        · exact hd p (List.mem_cons_of_mem q hp)
      · simp only [insertAdd, if_neg h, List.mem_cons] at hp
        rcases hp with rfl | hp
        · exact hd p (List.mem_cons_self p t)
        · exact ih (fun r hr => hd r (List.mem_cons_of_mem q hr)) p hp

theorem foldl_contrib_nonneg (l : Dict) (c w : ℚ) (hc : 0 < c) (hw : 0 < w) :
    ∀ rw : Dict, (∀ p ∈ rw, 0 ≤ p.2) →
      ∀ p ∈ l.foldl
        (fun rw q => if q.2 ≤ 0 then rw else insertAdd rw q.1 (q.2 * (1 / c) * w)) rw,
        0 ≤ p.2 := by
  induction l with
  | nil => intro rw hrw p hp; exact hrw p hp
  | cons q t ih =>
      intro rw hrw p hp
      simp only [List.foldl_cons] at hp
      by_cases hq : q.2 ≤ 0
      · rw [if_pos hq] at hp
        exact ih rw hrw p hp
      · rw [if_neg hq] at hp
        refine ih _ ?_ p hp
        refine insertAdd_nonneg rw q.1 _ hrw ?_
        have hq' : 0 < q.2 := not_le.mp hq
        positivity

theorem applySubnet_nonneg (lp_map : LiqMap) (rw : Dict) (sid : ℕ) (w : ℚ)
    (hrw : ∀ p ∈ rw, 0 ≤ p.2) :
    ∀ p ∈ applySubnet lp_map rw sid w, 0 ≤ p.2 := by
  unfold applySubnet
  by_cases h1 : w ≤ 0
  · rw [if_pos h1]; exact hrw
  · rw [if_neg h1]
    by_cases h2 : sumValues (lget lp_map sid) ≤ 0
    · simp only [if_pos h2]; exact hrw
    · simp only [if_neg h2]
      exact foldl_contrib_nonneg (lget lp_map sid) (sumValues (lget lp_map sid)) w
        (not_le.mp h2) (not_le.mp h1) rw hrw

theorem rawRewards_nonneg (master_w : Dict) (lp_map : LiqMap) :
    ∀ p ∈ rawRewards master_w lp_map, 0 ≤ p.2 := by
  unfold rawRewards
  suffices h : ∀ acc : Dict, (∀ p ∈ acc, 0 ≤ p.2) →
      ∀ p ∈ master_w.foldl (fun rw p => applySubnet lp_map rw p.1 p.2) acc, 0 ≤ p.2 by
    exact h [] (by simp)
  induction master_w with
  | nil => intro acc hacc p hp; exact hacc p hp
  | cons q t ih =>
      intro acc hacc p hp
      simp only [List.foldl_cons] at hp
      exact ih _ (applySubnet_nonneg lp_map acc q.1 q.2 hacc) p hp

theorem insertReplace_notMem (d : Dict) (k : ℕ) (v : ℚ) (h : k ∉ keys d) :
    insertReplace d k v = d ++ [(k, v)] := by
  induction d with
  | nil => rfl
  | cons q t ih =>
      simp only [keys, List.map_cons, List.mem_cons] at h
      push_neg at h
      have h1 : q.1 ≠ k := fun he => h.1 he.symm
      simp only [insertReplace, if_neg h1, List.cons_append]
      rw [ih (by simpa [keys] using h.2)]

theorem uniform_fold_eq (c : ℚ) (uids : List ℕ) (hnd : uids.Nodup) :
    ∀ acc : Dict, (∀ u ∈ uids, u ∉ keys acc) →
      uids.foldl (fun d u => insertReplace d u c) acc
        = acc ++ uids.map (fun u => (u, c)) := by
  induction uids with
  | nil => intro acc _; simp
  | cons u t ih =>
      intro acc hacc
      simp only [List.foldl_cons]
      rw [insertReplace_notMem acc u c (hacc u (List.mem_cons_self u t))]
      rw [ih (List.Nodup.of_cons hnd) (acc ++ [(u, c)]) ?_]
      · simp
      · intro u' hu'
        simp only [keys, List.map_append, List.mem_append]
        push_neg
        refine ⟨hacc u' (List.mem_cons_of_mem u hu'), ?_⟩
        have hne : u' ≠ u := by
          rintro rfl
          exact (List.nodup_cons.mp hnd).1 hu'
        simpa using hne

theorem sumValues_const_map (c : ℚ) (uids : List ℕ) :
    sumValues (uids.map (fun u => (u, c))) = uids.length * c := by
  induction uids with
  | nil => simp [sumValues]
  | cons u t ih =>
      simp only [List.map_cons, sumValues_cons, ih, List.length_cons]
      push_cast
      ring

theorem dget_const_map (c : ℚ) (uids : List ℕ) (u : ℕ) (hu : u ∈ uids) :
    dget (uids.map (fun u => (u, c))) u = c := by
  induction uids with
  | nil => cases hu
  | cons v t ih =>
      simp only [List.map_cons, dget]
      by_cases h : v = u
      · rw [if_pos h]
      · rw [if_neg h]
        rcases List.mem_cons.mp hu with rfl | hu'
        · exact absurd rfl h
        · exact ih hu'

/-- C2: for every non-empty, duplicate-free slot universe and arbitrary
master vector and liquidity map, `compute`'s output (here factored through
`computeWithMaster`) has non-negative values and sums to exactly 1 (the
float claim "1.0 ± 1e-9" holds exactly over ℚ); when the raw reward sum is
positive each raw value is divided by that sum, and when it is 0 every slot
of the universe receives exactly `1/|universe|`. -/
theorem compute_probability_vector (uids : List ℕ) (master_w : Dict)
    (lp_map : LiqMap) (h1 : uids ≠ []) (h2 : uids.Nodup) :
    (∀ p ∈ computeWithMaster uids master_w lp_map, 0 ≤ p.2) ∧
      sumValues (computeWithMaster uids master_w lp_map) = 1 ∧
      (0 < sumValues (rawRewards master_w lp_map) →
        computeWithMaster uids master_w lp_map
          = (rawRewards master_w lp_map).map
              (fun p => (p.1, p.2 * (1 / sumValues (rawRewards master_w lp_map))))) ∧
      (sumValues (rawRewards master_w lp_map) = 0 →
        ∀ u ∈ uids, dget (computeWithMaster uids master_w lp_map) u
          = 1 / uids.length) := by
  have hne : ¬ uids.isEmpty = true := by simpa [List.isEmpty_iff] using h1
  have hlen : (uids.length : ℚ) ≠ 0 := by
    exact_mod_cast fun h => h1 (List.length_eq_zero.mp (by exact_mod_cast h))
  by_cases hpos : 0 < sumValues (rawRewards master_w lp_map)
  · have heq : computeWithMaster uids master_w lp_map
        = (rawRewards master_w lp_map).map
            (fun p => (p.1, p.2 * (1 / sumValues (rawRewards master_w lp_map)))) := by
      simp only [computeWithMaster, if_neg hne, if_pos hpos]
    refine ⟨?_, ?_, fun _ => heq, fun hz => absurd hz (ne_of_gt hpos)⟩
    · intro p hp
      rw [heq] at hp
      rcases List.mem_map.mp hp with ⟨q, hq, rfl⟩
      have hq2 : 0 ≤ q.2 := rawRewards_nonneg master_w lp_map q hq
      have := le_of_lt hpos
      positivity
    · rw [heq, sumValues_map_mul]
      rw [mul_one_div, div_self (ne_of_gt hpos)]
  · have hfold : computeWithMaster uids master_w lp_map
        = uids.map (fun u => (u, (1 : ℚ) / uids.length)) := by
      simp only [computeWithMaster, if_neg hne, if_neg hpos]
      simpa using uniform_fold_eq (1 / uids.length) uids h2 [] (by simp [keys])
    refine ⟨?_, ?_, fun hp => absurd hp hpos, fun _ u hu => ?_⟩
    · intro p hp
      rw [hfold] at hp
      rcases List.mem_map.mp hp with ⟨u, _, rfl⟩
      positivity
    · rw [hfold, sumValues_const_map, mul_one_div, div_self hlen]
    · rw [hfold, dget_const_map _ _ _ hu]

theorem compute_probability_vector_witness :
    sumValues (computeWithMaster [0, 1] [] []) = 1 ∧
      dget (computeWithMaster [0, 1] [] []) 0 = 1 / 2 := by
  have h := compute_probability_vector [0, 1] [] [] (by simp) (by norm_num)
  refine ⟨h.2.1, ?_⟩
  have h4 := h.2.2.2 (by norm_num [rawRewards, sumValues]) 0 (by norm_num)
  simpa using h4

/-! ## List-index helper lemmas for the score accumulator -/

theorem getD_set_eq (l : List ℚ) (i : ℕ) (v : ℚ) (h : i < l.length) :
    (l.set i v).getD i 0 = v := by
  induction l generalizing i with
  | nil => simp at h
  | cons a t ih =>
      cases i with
      | zero => simp
      | succ n =>
          simp only [List.set_cons_succ, List.getD_cons_succ]
          exact ih n (by simpa using h)

theorem getD_set_ne (l : List ℚ) (i j : ℕ) (v : ℚ) (h : j ≠ i) :
    (l.set j v).getD i 0 = l.getD i 0 := by
  induction l generalizing i j with
  | nil => simp
  | cons a t ih =>
      cases j with
      | zero =>
          cases i with
          | zero => exact absurd rfl h
          | succ m => simp
      | succ n =>
          cases i with
          | zero => simp
          | succ m =>
              simp only [List.set_cons_succ, List.getD_cons_succ]
              exact ih m n (fun he => h (by rw [he]))

theorem getD_replicate_zero (k i : ℕ) : (List.replicate k (0 : ℚ)).getD i 0 = 0 := by
  induction k generalizing i with
  | zero => simp
  | succ n ih =>
      cases i with
      | zero => simp [List.replicate_succ]
      | succ m =>
          rw [List.replicate_succ, List.getD_cons_succ]
          exact ih m

theorem getD_zipWith (f : ℚ → ℚ → ℚ) (a b : List ℚ) (i : ℕ)
    (ha : i < a.length) (hb : i < b.length) :
    (List.zipWith f a b).getD i 0 = f (a.getD i 0) (b.getD i 0) := by
  induction a generalizing b i with
  | nil => simp at ha
  | cons x t ih =>
      cases b with
      | nil => simp at hb
      | cons y u =>
          cases i with
          | zero => simp
          | succ m =>
              simp only [List.zipWith_cons_cons, List.getD_cons_succ]
              exact ih u m (by simpa using ha) (by simpa using hb)

theorem foldl_set_length (l : List (ℕ × ℚ)) :
    ∀ acc : List ℚ, (l.foldl (fun a p => a.set p.1 p.2) acc).length = acc.length := by
  induction l with
  | nil => intro acc; rfl
  | cons p t ih =>
      intro acc
      simp only [List.foldl_cons]
      rw [ih]
      exact List.length_set acc p.1 p.2 ▸ rfl

theorem scatterList_length (n : ℕ) (uids : List ℕ) (rewards : List ℚ) :
    (scatterList n uids rewards).length = n := by
  unfold scatterList
  rw [foldl_set_length]
  exact List.length_replicate n 0

theorem emaStep_length (a b : List ℚ) :
    (emaStep a b).length = min a.length b.length := by
  simp [emaStep]

/-- `update_scores` on well-shaped inputs: the EMA of the scattered reward
vector. -/
theorem update_scores_eq (scores : List ℚ) (rewards : List FloatVal)
    (uids : List ℕ) (hr : rewards ≠ []) (hu : uids ≠ [])
    (hlen : rewards.length = uids.length)
    (hin : ∀ u ∈ uids, u < scores.length) :
    update_scores scores rewards uids
      = some (emaStep (scatterList scores.length uids (rewards.map nanToNum)) scores) := by
  unfold update_scores
  rw [if_neg, if_neg, if_pos]
  · rw [List.all_eq_true]
    intro u hu'
    exact decide_eq_true (hin u hu')
  · simp [hlen]
  · push_neg
    constructor
    · intro h
      exact hr (List.length_eq_zero.mp (by simpa using h))
    · intro h
      exact hu (List.length_eq_zero.mp h)

/-! ## C5: EMA update and geometric decay -/

/-- C5: on well-shaped inputs `update_scores` performs the elementwise EMA
`new = alpha * scattered + (1 - alpha) * old` with `alpha = 1/10`; a slot
whose scattered reward is 0 decays by `(1 - alpha)^k = 0.9^k` over `k`
consecutive updates, and a positive score stays strictly positive (hence
never exactly zero nor negative) under the exact-rational model. -/
theorem ema_decay (scores : List ℚ) (rewards : List FloatVal) (uids : List ℕ)
    (hr : rewards ≠ []) (hu : uids ≠ [])
    (hlen : rewards.length = uids.length)
    (hin : ∀ u ∈ uids, u < scores.length)
    (i : ℕ) (hi : i < scores.length) (k : ℕ)
    (hz : (scatterList scores.length uids (rewards.map nanToNum)).getD i 0 = 0) :
    update_scores scores rewards uids
        = some (emaStep (scatterList scores.length uids (rewards.map nanToNum)) scores) ∧
      (∀ j, j < scores.length →
        (emaStep (scatterList scores.length uids (rewards.map nanToNum)) scores).getD j 0
          = alpha * (scatterList scores.length uids (rewards.map nanToNum)).getD j 0
            + (1 - alpha) * scores.getD j 0) ∧
      (iterUpdate scores rewards uids k).getD i 0
        = (1 - alpha) ^ k * scores.getD i 0 ∧
      (0 < scores.getD i 0 → 0 < (iterUpdate scores rewards uids k).getD i 0) := by
  have h9 : (0 : ℚ) < 1 - alpha := by norm_num [alpha]
  have hformula : ∀ j, j < scores.length →
      (emaStep (scatterList scores.length uids (rewards.map nanToNum)) scores).getD j 0
        = alpha * (scatterList scores.length uids (rewards.map nanToNum)).getD j 0
          + (1 - alpha) * scores.getD j 0 := by
    intro j hj
    unfold emaStep
    exact getD_zipWith _ _ _ j (by rw [scatterList_length]; exact hj) hj
  have hmain : ∀ m : ℕ, (iterUpdate scores rewards uids m).length = scores.length ∧
      (iterUpdate scores rewards uids m).getD i 0
        = (1 - alpha) ^ m * scores.getD i 0 := by
    intro m
    induction m with
    | zero => exact ⟨rfl, by simp [iterUpdate]⟩
    | succ m ih =>
        obtain ⟨ihlen, ihval⟩ := ih
        have hupd : update_scores (iterUpdate scores rewards uids m) rewards uids
            = some (emaStep (scatterList (iterUpdate scores rewards uids m).length uids
                (rewards.map nanToNum)) (iterUpdate scores rewards uids m)) :=
          update_scores_eq _ rewards uids hr hu hlen (fun u hu' => ihlen ▸ hin u hu')
        have hstep : iterUpdate scores rewards uids (m + 1)
            = emaStep (scatterList (iterUpdate scores rewards uids m).length uids
                (rewards.map nanToNum)) (iterUpdate scores rewards uids m) := by
          simp [iterUpdate, hupd]
        constructor
        · rw [hstep, emaStep_length, scatterList_length, ihlen]
          simp
        · rw [hstep, ihlen]
          unfold emaStep
          rw [getD_zipWith _ _ _ i (by rw [scatterList_length]; exact hi)
            (by rw [ihlen]; exact hi)]
          rw [hz, ihval]
          ring
  refine ⟨update_scores_eq scores rewards uids hr hu hlen hin, hformula,
    (hmain k).2, fun hx => ?_⟩
  rw [(hmain k).2]
  exact mul_pos (pow_pos h9 k) hx

theorem ema_decay_witness :
    (iterUpdate [1] [FloatVal.finite 0] [0] 2).getD 0 0
        = (1 - alpha) ^ 2 * ([(1 : ℚ)].getD 0 0) ∧
      0 < (iterUpdate [1] [FloatVal.finite 0] [0] 2).getD 0 0 := by
  have h := ema_decay [1] [FloatVal.finite 0] [0] (by simp) (by simp) rfl
    (by simp) 0 (by norm_num) 2 (by simp [scatterList, nanToNum])
  exact ⟨h.2.2.1, h.2.2.2 (by norm_num)⟩

/-! ## C6: metagraph resync preserves/zeroes/extends scores -/

theorem cond_zero_fold_length (hk nhk : List ℕ) (l : List ℕ) :
    ∀ acc : List ℚ,
      (l.foldl
        (fun sc uid => if hk.getD uid 0 = nhk.getD uid 0 then sc else sc.set uid 0)
        acc).length = acc.length := by
  induction l with
  | nil => intro acc; rfl
  | cons u t ih =>
      intro acc
      simp only [List.foldl_cons]
      rw [ih]
      by_cases h : hk.getD u 0 = nhk.getD u 0
      · rw [if_pos h]
      · rw [if_neg h, List.length_set]

theorem cond_zero_fold_getD (hk nhk : List ℕ) (scores : List ℚ) (m i : ℕ) :
    ((List.range m).foldl
        (fun sc uid => if hk.getD uid 0 = nhk.getD uid 0 then sc else sc.set uid 0)
        scores).getD i 0
      = if i < m ∧ hk.getD i 0 ≠ nhk.getD i 0 then 0 else scores.getD i 0 := by
  induction m with
  | zero => simp
  | succ m ih =>
      rw [List.range_succ, List.foldl_append, List.foldl_cons, List.foldl_nil]
      by_cases hm : hk.getD m 0 = nhk.getD m 0
      · rw [if_pos hm, ih]
        by_cases hi : i < m ∧ hk.getD i 0 ≠ nhk.getD i 0
        · rw [if_pos hi, if_pos ⟨Nat.lt_succ_of_lt hi.1, hi.2⟩]
        · rw [if_neg hi, if_neg ?_]
          rintro ⟨h1, h2⟩
          rcases Nat.lt_succ_iff_lt_or_eq.mp h1 with h3 | rfl
          · exact hi ⟨h3, h2⟩
          · exact h2 hm
      · rw [if_neg hm]
        by_cases him : i = m
        · subst him
          by_cases hlt : i < scores.length
          · rw [getD_set_eq _ _ _ (by rw [cond_zero_fold_length]; exact hlt)]
            rw [if_pos ⟨Nat.lt_succ_self i, hm⟩]
          · have hfl : ((List.range i).foldl
                (fun sc uid => if hk.getD uid 0 = nhk.getD uid 0 then sc
                  else sc.set uid 0) scores).length ≤ i := by
              rw [cond_zero_fold_length]; omega
            rw [List.getD_eq_default _ _ (by rw [List.length_set]; exact hfl)]
            rw [if_pos ⟨Nat.lt_succ_self i, hm⟩]
        · rw [getD_set_ne _ _ _ _ (fun he => him he.symm), ih]
          by_cases hi : i < m ∧ hk.getD i 0 ≠ nhk.getD i 0
          · rw [if_pos hi, if_pos ⟨Nat.lt_succ_of_lt hi.1, hi.2⟩]
          · rw [if_neg hi, if_neg ?_]
            rintro ⟨h1, h2⟩
            rcases Nat.lt_succ_iff_lt_or_eq.mp h1 with h3 | h4
            · exact hi ⟨h3, h2⟩
            · exact him h4

/-- C6: after a resync with a universe that did not shrink, slots whose
bound hotkey is unchanged keep their score, slots whose hotkey changed are
reset to exactly 0, newly added slots are zero-filled, and the score vector
is resized to the new universe. -/
theorem resync_preserves_and_zeroes (hotkeys newHotkeys : List ℕ) (scores : List ℚ)
    (hslen : scores.length = hotkeys.length)
    (hgrow : hotkeys.length ≤ newHotkeys.length) :
    (resync_metagraph hotkeys scores newHotkeys).length = newHotkeys.length ∧
      (∀ i, i < hotkeys.length → hotkeys.getD i 0 = newHotkeys.getD i 0 →
        (resync_metagraph hotkeys scores newHotkeys).getD i 0 = scores.getD i 0) ∧
      (∀ i, i < hotkeys.length → hotkeys.getD i 0 ≠ newHotkeys.getD i 0 →
        (resync_metagraph hotkeys scores newHotkeys).getD i 0 = 0) ∧
      (∀ i, hotkeys.length ≤ i →
        (resync_metagraph hotkeys scores newHotkeys).getD i 0 = 0) := by
  have hFlen : ((List.range hotkeys.length).foldl
      (fun sc uid => if hotkeys.getD uid 0 = newHotkeys.getD uid 0 then sc
        else sc.set uid 0) scores).length = scores.length :=
    cond_zero_fold_length hotkeys newHotkeys (List.range hotkeys.length) scores
  unfold resync_metagraph
  by_cases hg : hotkeys.length < newHotkeys.length
  · rw [if_pos hg]
    refine ⟨?_, ?_, ?_, ?_⟩
    · rw [List.length_append, List.length_replicate, hFlen, hslen]
      omega
    · intro i hi heq
      rw [List.getD_append _ _ _ _ (by rw [hFlen, hslen]; exact hi)]
      rw [cond_zero_fold_getD, if_neg (by rintro ⟨-, h2⟩; exact h2 heq)]
    · intro i hi hne
      rw [List.getD_append _ _ _ _ (by rw [hFlen, hslen]; exact hi)]
      rw [cond_zero_fold_getD, if_pos ⟨hi, hne⟩]
    · intro i hi
      rw [List.getD_append_right _ _ _ _ (by rw [hFlen, hslen]; exact hi)]
      exact getD_replicate_zero _ _
  · rw [if_neg hg]
    have heq : hotkeys.length = newHotkeys.length :=
      le_antisymm hgrow (not_lt.mp hg)
    refine ⟨by rw [hFlen, hslen, heq], ?_, ?_, ?_⟩
    · intro i hi hkeq
      rw [cond_zero_fold_getD, if_neg (by rintro ⟨-, h2⟩; exact h2 hkeq)]
    · intro i hi hne
      rw [cond_zero_fold_getD, if_pos ⟨hi, hne⟩]
    · intro i hi
      exact List.getD_eq_default _ _ (by rw [hFlen, hslen]; exact hi)

theorem resync_preserves_and_zeroes_witness :
    (resync_metagraph [5, 6] [2, 3] [5, 7, 9]).getD 0 0 = ([2, 3] : List ℚ).getD 0 0 ∧
      (resync_metagraph [5, 6] [2, 3] [5, 7, 9]).getD 1 0 = 0 ∧
      (resync_metagraph [5, 6] [2, 3] [5, 7, 9]).getD 2 0 = 0 := by
  have h := resync_preserves_and_zeroes [5, 6] [5, 7, 9] [2, 3] rfl (by norm_num)
  exact ⟨h.2.1 0 (by norm_num) (by decide), h.2.2.1 1 (by norm_num) (by decide),
    h.2.2.2 2 (by norm_num)⟩

/-! ## C7: non-finite reward handling -/

/-- C7 (counterexample): a `+inf` reward entry is not replaced with 0:
`np.nan_to_num(..., nan=0.0)` maps it to the largest finite float64, so the
updated score is `maxFloat64 / 10`, not the 0 the claim would give. -/
theorem nonfinite_not_zeroed_counterexample :
    update_scores [0] [FloatVal.posInf] [0] = some [maxFloat64 / 10] ∧
      maxFloat64 / 10 ≠ 0 ∧
      update_scores [0] [FloatVal.posInf] [0] ≠ some [(0 : ℚ)] := by
  refine ⟨?_, by norm_num [maxFloat64], ?_⟩ <;>
    norm_num [update_scores, scatterList, emaStep, alpha, nanToNum, maxFloat64]

/-- C7 (amended): before scattering, `update_scores` replaces every NaN in
the reward vector with 0 (replacing NaNs by zero beforehand never changes
the result), while +inf and -inf are replaced with plus/minus the largest
finite float64 rather than 0. -/
theorem nan_to_num_semantics :
    (∀ (scores : List ℚ) (rewards : List FloatVal) (uids : List ℕ),
        update_scores scores
            (rewards.map (fun r => if r = FloatVal.nan then FloatVal.finite 0 else r))
            uids
          = update_scores scores rewards uids) ∧
      nanToNum FloatVal.nan = 0 ∧
      nanToNum FloatVal.posInf = maxFloat64 ∧
      nanToNum FloatVal.negInf = -maxFloat64 := by
  refine ⟨?_, rfl, rfl, rfl⟩
  intro scores rewards uids
  have hmap : nanToNum ∘ (fun r => if r = FloatVal.nan then FloatVal.finite 0 else r)
      = nanToNum := by
    funext r
    cases r <;> simp [nanToNum]
  unfold update_scores
  rw [List.map_map, hmap]

/-! ## C8: sparse reward maps are tolerated -/

theorem boostedOf_length (n : ℕ) (d : Dict) : (boostedOf n d).length = n := by
  unfold boostedOf
  suffices hs : ∀ acc : List ℚ,
      (d.foldl (fun b p => if p.1 < n then b.set p.1 p.2 else b) acc).length
        = acc.length by
    rw [hs]
    exact List.length_replicate n 0
  induction d with
  | nil => intro acc; rfl
  | cons p t ih =>
      intro acc
      simp only [List.foldl_cons]
      rw [ih]
      by_cases hp : p.1 < n
      · rw [if_pos hp, List.length_set]
      · rw [if_neg hp]

theorem boostedOf_filter (n : ℕ) (d : Dict) :
    boostedOf n (d.filter (fun p => p.1 < n)) = boostedOf n d := by
  unfold boostedOf
  suffices hs : ∀ acc : List ℚ,
      (d.filter (fun p => p.1 < n)).foldl
          (fun b p => if p.1 < n then b.set p.1 p.2 else b) acc
        = d.foldl (fun b p => if p.1 < n then b.set p.1 p.2 else b) acc from
    hs _
  induction d with
  | nil => intro acc; rfl
  | cons p t ih =>
      intro acc
      by_cases hp : p.1 < n
      · simp only [List.filter_cons, if_pos (decide_eq_true hp), List.foldl_cons,
          if_pos hp]
        exact ih _
      · have hd : ¬ (decide (p.1 < n) = true) := by simpa using hp
        simp only [List.filter_cons, if_neg hd, List.foldl_cons, if_neg hp]
        exact ih acc

theorem boostedOf_fold_getD (n i : ℕ) (d : Dict) :
    ∀ acc : List ℚ, i ∉ keys d → acc.getD i 0 = 0 →
      (d.foldl (fun b p => if p.1 < n then b.set p.1 p.2 else b) acc).getD i 0
        = 0 := by
  induction d with
  | nil => intro acc _ hacc; exact hacc
  | cons p t ih =>
      intro acc hmem hacc
      simp only [keys, List.map_cons, List.mem_cons] at hmem
      push_neg at hmem
      simp only [List.foldl_cons]
      refine ih _ (by simpa [keys] using hmem.2) ?_
      by_cases hp : p.1 < n
      · rw [if_pos hp]
        rw [getD_set_ne _ _ _ _ (fun he => hmem.1 he.symm)]
        exact hacc
      · rw [if_neg hp]
        exact hacc

/-- C8: for every reward dict — including dicts holding entries for slots
outside the universe, or missing entries for slots inside it — the forward
conversion plus score update completes (returns `some`, never an
exception): entries outside `[0, n)` are ignored, and slots without an
entry scatter as 0. -/
theorem sparse_reward_tolerated (scores : List ℚ) (uid_scores : Dict)
    (h : scores ≠ []) :
    (∃ res, forwardUpdate scores uid_scores = some res) ∧
      forwardUpdate scores (uid_scores.filter (fun p => p.1 < scores.length))
        = forwardUpdate scores uid_scores ∧
      (∀ i, i < scores.length → i ∉ keys uid_scores →
        (boostedOf scores.length uid_scores).getD i 0 = 0) := by
  have hn : scores.length ≠ 0 := fun h0 => h (List.length_eq_zero.mp h0)
  have hgen : ∀ b2 : List ℚ, b2.length = scores.length →
      ∃ res, update_scores scores (b2.map FloatVal.finite)
        (List.range scores.length) = some res := by
    intro b2 hb
    refine ⟨_, update_scores_eq scores _ _ ?_ ?_ ?_ ?_⟩
    · intro hnil
      exact hn (by rw [← hb, ← List.length_map b2 FloatVal.finite, hnil]; rfl)
    · intro hnil
      exact hn (by rw [← List.length_range scores.length, hnil]; rfl)
    · rw [List.length_map, List.length_range, hb]
    · intro u hu
      exact List.mem_range.mp hu
  refine ⟨?_, ?_, fun i _ hmem =>
    boostedOf_fold_getD scores.length i uid_scores _ hmem
      (getD_replicate_zero _ _)⟩
  · simp only [forwardUpdate]
    by_cases hpos : 0 < (boostedOf scores.length uid_scores).sum
    · rw [if_pos hpos]
      exact hgen _ (by rw [List.length_map, boostedOf_length])
    · rw [if_neg hpos]
      exact hgen _ (List.length_replicate _ _)
  · simp only [forwardUpdate]
    rw [boostedOf_filter]

theorem sparse_reward_tolerated_witness :
    (∃ res, forwardUpdate [0] [(5, 3)] = some res) ∧
      (boostedOf [(0 : ℚ)].length [(5, 3)]).getD 0 0 = 0 := by
  have h := sparse_reward_tolerated [0] [(5, 3)] (by simp)
  exact ⟨h.1, h.2.2 0 (by norm_num) (by decide)⟩
